import Mathlib

/-!
Verification of the constrained-manifold core of this repository:
`Constraint` (`src/ompl/base/src/Constraint.cpp`) and
`NullspaceStateSpace` (`src/ompl/base/spaces/src/NullspaceStateSpace.cpp`).

Machine doubles are modelled as real numbers; Eigen's dynamically sized
vectors and matrices as lists of reals (a matrix is its list of rows).
The Eigen factorisation routines (`colPivHouseholderQr().solve`,
`fullPivLu().solve`, `fullPivLu().kernel()`) are numerical black boxes
from the point of view of the two source files; they enter the model as
function parameters (oracles), and every theorem that depends on their
output states explicitly the property of the oracle it assumes.
-/

/-- Eigen dynamic vector (`Eigen::VectorXd`): a list of reals. -/
abbrev Vec := List ℝ

/-- Eigen dynamic matrix (`Eigen::MatrixXd`) as its list of rows. -/
abbrev Mat := List Vec

/-- Componentwise vector addition. -/
def vadd (a b : Vec) : Vec := List.zipWith (· + ·) a b

/-- Componentwise vector subtraction. -/
def vsub (a b : Vec) : Vec := List.zipWith (· - ·) a b

/-- Scalar times vector. -/
def smul (c : ℝ) (v : Vec) : Vec := v.map (fun a => c * a)

/-- Vector divided by a scalar. -/
noncomputable def vdiv (v : Vec) (c : ℝ) : Vec := v.map (fun a => a / c)

/-- Euclidean inner product of two coefficient lists. -/
def dot (a b : Vec) : ℝ := (List.zipWith (· * ·) a b).sum

/-- Matrix times vector, row by row. -/
def matVec (M : Mat) (v : Vec) : Vec := M.map (fun r => dot r v)

/-- Eigen's `M.rowwise().reverse()`: reverse every row, i.e. use the
columns of `M` in reverse order. -/
def rowwiseReverse (M : Mat) : Mat := M.map List.reverse

/-- Euclidean norm (`Eigen`'s `.norm()`). -/
noncomputable def enorm (v : Vec) : ℝ := Real.sqrt ((v.map (fun a => a * a)).sum)

/-- The zero vector of length `m`. -/
def zeroVec (m : ℕ) : Vec := List.replicate m (0 : ℝ)

/-- Machine epsilon of IEEE doubles, `std::numeric_limits<double>::epsilon()`. -/
noncomputable def dblEpsilon : ℝ := 1 / 2 ^ 52

/-- Finite-difference step for column `j` of the default numeric jacobian:
`std::sqrt(std::numeric_limits<double>::epsilon()) * (x[j] >= 1 ? x[j] : 1)`
(Constraint.cpp line 76). -/
noncomputable def fdStep (xj : ℝ) : ℝ :=
  Real.sqrt dblEpsilon * (if 1 ≤ xj then xj else 1)

/-- Column `j` of the default numeric jacobian of `f`
(Constraint.cpp lines 72-99).  The source keeps two scratch vectors
`y1`, `y2` equal to `x` away from entry `j` and moves their `j`-th
entries outwards by `h` three times, dividing each difference of
function values by the current spread `y1[j] - y2[j]`; the combination
`1.5*m1 - 0.6*m2 + 0.1*m3` is the produced column. -/
noncomputable def numDiffCol (f : Vec → Vec) (x : Vec) (j : ℕ) : Vec :=
  let xj := x.getD j 0
  let h := fdStep xj
  let y1a := x.set j (xj + h)
  let y2a := x.set j (xj - h)
  let m1 := vdiv (vsub (f y1a) (f y2a)) (y1a.getD j 0 - y2a.getD j 0)
  let y1b := y1a.set j (y1a.getD j 0 + h)
  let y2b := y2a.set j (y2a.getD j 0 - h)
  let m2 := vdiv (vsub (f y1b) (f y2b)) (y1b.getD j 0 - y2b.getD j 0)
  let y1c := y1b.set j (y1b.getD j 0 + h)
  let y2c := y2b.set j (y2b.getD j 0 - h)
  let m3 := vdiv (vsub (f y1c) (f y2c)) (y1c.getD j 0 - y2c.getD j 0)
  vadd (vsub (smul 1.5 m1) (smul 0.6 m2)) (smul 0.1 m3)

/-- Default numeric jacobian (`Constraint::jacobian`), an
`(n - k) × n` matrix whose `j`-th column is `numDiffCol f x j`. -/
noncomputable def numericJacobian (n k : ℕ) (f : Vec → Vec) (x : Vec) : Mat :=
  (List.range (n - k)).map (fun i => (List.range n).map (fun j => (numDiffCol f x j).getD i 0))

/-- Central-difference derivative estimate of `f` in coordinate `j` at
step scale `s`: `(f(x + s e_j) - f(x - s e_j)) / (2 s)`. -/
noncomputable def centralDiff (f : Vec → Vec) (x : Vec) (j : ℕ) (s : ℝ) : Vec :=
  vdiv (vsub (f (x.set j (x.getD j 0 + s))) (f (x.set j (x.getD j 0 - s)))) (2 * s)

/-- The `ompl::base::Constraint` configuration: ambient dimension `n_`,
manifold dimension `k_`, the abstract residual `function`, the virtual
`jacobian` (the default implementation is `numericJacobian n k f`;
concrete constraints may override it), and the projection parameters. -/
structure Constraint where
  n : ℕ
  k : ℕ
  f : Vec → Vec
  jacobian : Vec → Mat
  projectionTolerance : ℝ
  projectionMaxIterations : ℕ

/-- `Constraint::distance`: Euclidean norm of the residual. -/
noncomputable def Constraint.distance (C : Constraint) (x : Vec) : ℝ :=
  enorm (C.f x)

/-- `Constraint::isSatisfied`: the residual norm is within tolerance.
Over the real numbers every coordinate is finite, so `x.allFinite()`
from the source holds identically and is dropped. -/
def Constraint.isSatisfied (C : Constraint) (x : Vec) : Prop :=
  Constraint.distance C x ≤ C.projectionTolerance

open Classical in
/-- Newton loop of `Constraint::project` (Constraint.cpp lines 105-116).
`qr` is the oracle for Eigen's `colPivHouseholderQr().solve`.  The state
is `(x, iter, steps)` where `iter` models the C++ counter (note the
post-increment in `iter++ < projectionMaxIterations_`, which bumps the
counter once more on the exhausted exit) and `steps` instruments the
number of Newton updates actually applied.  `fuel` only drives the
recursion; the caller passes `projectionMaxIterations + 1`, which the
`iter` guard makes sufficient. -/
noncomputable def projectLoop (qr : Mat → Vec → Vec) (C : Constraint) :
    ℕ → Vec → ℕ → ℕ → Vec × ℕ × ℕ
  | 0, x, iter, steps => (x, iter, steps)
  | fuel + 1, x, iter, steps =>
    if C.projectionTolerance < enorm (C.f x) then
      if iter < C.projectionMaxIterations then
        projectLoop qr C fuel (vsub x (qr (C.jacobian x) (C.f x))) (iter + 1) (steps + 1)
      else (x, iter + 1, steps)
    else (x, iter, steps)

/-- `Constraint::project`: runs the Newton loop and returns the final
point together with the boolean `iter <= projectionMaxIterations_`. -/
noncomputable def project (qr : Mat → Vec → Vec) (C : Constraint) (x : Vec) : Vec × Bool :=
  let r := projectLoop qr C (C.projectionMaxIterations + 1) x 0 0
  (r.1, decide (r.2.1 ≤ C.projectionMaxIterations))

/-- Number of Newton updates performed by `Constraint::project`. -/
noncomputable def projectSteps (qr : Mat → Vec → Vec) (C : Constraint) (x : Vec) : ℕ :=
  (projectLoop qr C (C.projectionMaxIterations + 1) x 0 0).2.2

/-- The `i`-th Newton iterate from `x`: the point held by `project`'s
loop after `i` updates `x ← x - qr(jacobian(x), f(x))`. -/
noncomputable def newtonIterate (qr : Mat → Vec → Vec) (C : Constraint) (x : Vec) : ℕ → Vec
  | 0 => x
  | i + 1 =>
    let y := newtonIterate qr C x i
    vsub y (qr (C.jacobian y) (C.f y))

/-- The `ompl::base::NullspaceStateSpace` data used by
`traverseManifold`: the owning constraint (`constraint_`), the step
discretisation (`delta_`), the state-validity oracle obtained from
`si_->getStateValidityChecker()`, and the two outputs of Eigen's
`fullPivLu()` factorisation of the jacobian, taken as oracles
(`lsolve` for `lu.solve`, `lkernel` for `lu.kernel()`, both
deterministic functions of the factored matrix). -/
structure NullspaceStateSpace where
  constraint : Constraint
  delta : ℝ
  isValid : Vec → Bool
  lsolve : Mat → Vec → Vec
  lkernel : Mat → Mat

/-- Modelled from the spec: `RealVectorStateSpace::distance`, the
Euclidean distance of the ambient space, is not part of the two source
files; the spec lists "Euclidean distance between two points" among the
consumed ambient-space operations. -/
noncomputable def rvDistance (a b : Vec) : ℝ := enorm (vsub a b)

/-- Modelled from the spec: `RealVectorStateSpace::interpolate`, linear
interpolation `a + t*(b - a)` in the ambient space, is not part of the
two source files; the spec lists "linear interpolation between two
points at a parameter" among the consumed ambient-space operations. -/
noncomputable def rvInterpolate (a b : Vec) (t : ℝ) : Vec :=
  vadd a (smul t (vsub b a))

/-- Modelled from the spec: `validSegmentCount`, "a discretization-step
count between two points given the configured `delta`", is not part of
the two source files; the spec describes it as "a positive integer
derived from ambient distance and `delta`; if `0`, the two points are
already within one step", which the ceiling of `distance / delta`
realises. -/
noncomputable def validSegmentCount (S : NullspaceStateSpace) (a b : Vec) : ℕ :=
  ⌈rvDistance a b / S.delta⌉₊

/-- Corrected point of one iteration of the traversal loop
(NullspaceStateSpace.cpp lines 97-107): interpolate from `prev` toward
`tgt` at `t = delta / dist`, then set
`scratch = prev - lu.solve(f) + lu.kernel().rowwise().reverse() * (scratch - prev)`
with `f` and the jacobian evaluated at `prev`. -/
noncomputable def correctedPoint (S : NullspaceStateSpace) (tgt prev : Vec) (dist : ℝ) : Vec :=
  let t := S.delta / dist
  let scratch := rvInterpolate prev tgt t
  let f := S.constraint.f prev
  let j := S.constraint.jacobian prev
  vadd (vsub prev (S.lsolve j f)) (matVec (rowwiseReverse (S.lkernel j)) (vsub scratch prev))

open Classical in
/-- The `while (!(there = dist < delta_ + eps))` loop of
`traverseManifold` (NullspaceStateSpace.cpp lines 95-133), including the
`there`-guarded push of `to` after the loop.  State: remaining `dist`,
the `previous` point, and the collected `stateList` (`out`).  The C++
loop has no intrinsic iteration bound (only the divergence check), so
the model carries `fuel` and returns `none` when it runs out; every
theorem speaks about runs that return a result. -/
noncomputable def travLoop (S : NullspaceStateSpace) (tgt : Vec) (interp : Bool) :
    ℕ → ℝ → Vec → List Vec → Option (Bool × List Vec)
  | 0, _, _, _ => none
  | fuel + 1, dist, prev, out =>
    if dist < S.delta + dblEpsilon then some (true, out ++ [tgt])
    else
      let scratch := correctedPoint S tgt prev dist
      if (interp || S.isValid scratch) = false ∨ rvDistance prev scratch > 2 * S.delta then
        some (false, out)
      else
        if rvDistance scratch tgt ≥ dist then some (false, out ++ [scratch])
        else travLoop S tgt interp fuel (rvDistance scratch tgt) scratch (out ++ [scratch])

open Classical in
/-- `NullspaceStateSpace::traverseManifold` (lines 59-138), for a caller
that supplies an output `stateList`: the list is cleared and a copy of
`from` pushed before anything else; the `n == 0` case returns `true`
immediately; an unsatisfied start returns `false` immediately; otherwise
the walk runs with `dist = distance(from, to)` and `previous = from`. -/
noncomputable def traverseManifold (S : NullspaceStateSpace) (a b : Vec)
    (interp : Bool) (fuel : ℕ) : Option (Bool × List Vec) :=
  let n := validSegmentCount S a b
  let out := [a]
  if n = 0 then some (true, out)
  else if ¬ S.constraint.isSatisfied a then some (false, out)
  else travLoop S b interp fuel (rvDistance a b) a out

/-- What `si->getStateSpace()` can be bound to, as far as
`checkSpace`'s `dynamic_cast` is concerned: either an actual
`NullspaceStateSpace` or some other state space. -/
inductive SpaceRepr where
  | nullspaceRepr (S : NullspaceStateSpace) : SpaceRepr
  | otherRepr : SpaceRepr

/-- Modelled from the spec: the `SpaceInformation` object handed to
`checkSpace` is not part of the two source files; all `checkSpace`
reads from it is the bound state space, on which the source performs a
runtime downcast — "a runtime downcast used as a precondition guard
... no run-time type identity needed beyond a tag or enum
discriminant". -/
structure SpaceInformation where
  stateSpace : SpaceRepr

/-- The result of `dynamic_cast<NullspaceStateSpace *>`: the space
itself when the representation really is a `NullspaceStateSpace`,
otherwise `none` (the null pointer). -/
def castNullspace : SpaceRepr → Option NullspaceStateSpace
  | SpaceRepr.nullspaceRepr S => some S
  | SpaceRepr.otherRepr => none

/-- `NullspaceStateSpace::checkSpace` (lines 52-57): throw an
`ompl::Exception` iff the downcast yields a null pointer, otherwise
return with no effect. -/
def checkSpace (si : SpaceInformation) : Except String Unit :=
  match castNullspace si.stateSpace with
  | some _ => Except.ok ()
  | none => Except.error "si needs to use an NullspaceStateSpace!"

/-- Column `j` of a row-list matrix. -/
def colOf (M : Mat) (j : ℕ) : Vec := M.map (fun r => r.getD j 0)

/-- `u` lies in the null space of `J`: `J * u = 0`. -/
def inNull (J : Mat) (u : Vec) : Prop := matVec J u = zeroVec J.length

/-- Linear combination of the vectors `cols` (of length `n`) with the
given coefficients. -/
def lincomb (n : ℕ) (cols : List Vec) (coef : List ℝ) : Vec :=
  (List.zipWith smul coef cols).foldr vadd (zeroVec n)

/-- The columns of `K` (an `n × d` matrix) lie in the null space of `J`
and span it: the contract Eigen documents for `fullPivLu().kernel()`
("the columns of the returned matrix will form a basis of the
kernel"). -/
def IsNullBasisSpan (n d : ℕ) (J K : Mat) : Prop :=
  K.length = n ∧ (∀ r ∈ K, r.length = d) ∧
  (∀ j < d, inNull J (colOf K j)) ∧
  (∀ u : Vec, u.length = n → inNull J u →
    ∃ coef : List ℝ, u = lincomb n ((List.range d).map (colOf K)) coef)

/-- `sol` is a least-squares solution of `J * y = rhs`: no `y` achieves
a smaller residual norm. -/
def IsLstsqSol (J : Mat) (rhs sol : Vec) : Prop :=
  ∀ y : Vec, enorm (vsub (matVec J sol) rhs) ≤ enorm (vsub (matVec J y) rhs)

/-- `w` is the orthogonal projection of `v` onto the null space of `J`:
it lies in the null space and the residual `v - w` is orthogonal to
every null-space vector. -/
def IsOrthProjOntoNull (J : Mat) (v w : Vec) : Prop :=
  w.length = v.length ∧ inNull J w ∧
  ∀ u : Vec, u.length = v.length → inNull J u → dot (vsub v w) u = 0

/-- Fixture: 1-dimensional ambient space, residual identically zero
(every point on the manifold), zero jacobian. -/
def conC1 : Constraint :=
  { n := 1, k := 0, f := fun _ => [0], jacobian := fun _ => [[0]],
    projectionTolerance := 0, projectionMaxIterations := 1 }

/-- Fixture: space over `conC1` whose `fullPivLu().kernel()` oracle
returns the (non-orthonormal) null-space basis `{[2]}` of the zero
jacobian. -/
noncomputable def spaceC1 : NullspaceStateSpace :=
  { constraint := conC1, delta := 1 / 2, isValid := fun _ => true,
    lsolve := fun _ _ => [0], lkernel := fun _ => [[2]] }

/-- Fixture: residual constantly `[1]` with tolerance `0`: no point is
ever satisfied and projection can never converge. -/
def conBad : Constraint :=
  { n := 1, k := 0, f := fun _ => [1], jacobian := fun _ => [[1]],
    projectionTolerance := 0, projectionMaxIterations := 1 }

/-- Fixture: `conBad` with a two-iteration budget. -/
def conBad2 : Constraint :=
  { conBad with projectionMaxIterations := 2 }

/-- Fixture: space over `conBad`, used for the off-manifold start state. -/
def spaceBad : NullspaceStateSpace :=
  { constraint := conBad, delta := 1, isValid := fun _ => true,
    lsolve := fun _ _ => [0], lkernel := fun _ => [[1]] }

/-- Fixture oracle standing for a QR solve that always answers `[1]`. -/
def qrOne : Mat → Vec → Vec := fun _ _ => [1]

/-- Fixture oracle standing for a QR solve that always answers `[0]`. -/
def qrZero : Mat → Vec → Vec := fun _ _ => [0]

/-- Fixture: residual identically zero (all of the line is feasible). -/
def conSat : Constraint :=
  { n := 1, k := 0, f := fun _ => [0], jacobian := fun _ => [[1]],
    projectionTolerance := 0, projectionMaxIterations := 1 }

/-- Fixture: walking space over `conSat` whose kernel oracle returns the
basis `{[-1]}`, so the corrected point steps away from the target. -/
noncomputable def spaceWalk : NullspaceStateSpace :=
  { constraint := conSat, delta := 1 / 2, isValid := fun _ => true,
    lsolve := fun _ _ => [0], lkernel := fun _ => [[-1]] }

lemma enorm_nonneg (v : Vec) : 0 ≤ enorm v := Real.sqrt_nonneg _

lemma enorm_single (a : ℝ) : enorm [a] = |a| := by
  simp [enorm, Real.sqrt_mul_self_eq_abs]

lemma rvDistance_single (a b : ℝ) : rvDistance [a] [b] = |a - b| := by
  simp [rvDistance, vsub, enorm, Real.sqrt_mul_self_eq_abs]

lemma vsub_self_eq_zeroVec (x : Vec) : vsub x x = zeroVec x.length := by
  induction x with
  | nil => rfl
  | cons a t ih =>
      simp [vsub, zeroVec, List.replicate_succ] at ih ⊢

lemma enorm_zeroVec (m : ℕ) : enorm (zeroVec m) = 0 := by
  simp [enorm, zeroVec]

lemma rvDistance_self (x : Vec) : rvDistance x x = 0 := by
  rw [rvDistance, vsub_self_eq_zeroVec, enorm_zeroVec]

lemma dblEpsilon_pos : 0 < dblEpsilon := by norm_num [dblEpsilon]

lemma getD_set_self (x : Vec) (j : ℕ) (v : ℝ) (h : j < x.length) :
    (x.set j v).getD j 0 = v := by
  rw [List.getD_eq_getElem _ _ (by simpa using h), List.getElem_set_self]

lemma chain'_dropLast {R : Vec → Vec → Prop} :
    ∀ l : List Vec, List.Chain' R l → List.Chain' R l.dropLast
  | [], _ => List.chain'_nil
  | [_], _ => by simp
  | a :: b :: t, h => by
      rcases List.chain'_cons.mp h with ⟨hab, hbt⟩
      cases t with
      | nil => simp
      | cons c t' =>
          have := chain'_dropLast (b :: c :: t') hbt
          simpa [List.dropLast] using List.chain'_cons.mpr ⟨hab, by simpa [List.dropLast] using this⟩

/-- C4 counterexample: at the concrete coordinate `x_j = -2` the step
computed by the code, `sqrt(eps) * (x_j >= 1 ? x_j : 1) = sqrt(eps) * 1`,
differs from the claimed `sqrt(eps) * max(|x_j|, 1) = sqrt(eps) * 2`. -/
theorem fd_step_cex : fdStep (-2) ≠ Real.sqrt dblEpsilon * max |(-2 : ℝ)| 1 := by
  have hpos : 0 < Real.sqrt dblEpsilon := Real.sqrt_pos.mpr dblEpsilon_pos
  intro h
  rw [fdStep, if_neg (by norm_num)] at h
  have h2 : |(-2 : ℝ)| = 2 := by norm_num
  rw [h2, show max (2 : ℝ) 1 = 2 by norm_num] at h
  have := mul_left_cancel₀ (ne_of_gt hpos) h
  norm_num at this

/-- C4 (amended): the finite-difference step of the default numeric
jacobian is `h = sqrt(machine_epsilon) * max(x_j, 1)` — the coordinate
itself clamped below by `1`, without an absolute value. -/
theorem fd_step_amended (xj : ℝ) : fdStep xj = Real.sqrt dblEpsilon * max xj 1 := by
  rw [fdStep]
  rcases le_or_lt 1 xj with h | h
  · rw [if_pos h, max_eq_left h]
  · rw [if_neg (not_le.mpr h), max_eq_right h.le]

/-- C8: projecting a point whose residual is already within
`projectionTolerance` returns `true`, leaves the point exactly
unchanged, and applies no Newton update. -/
theorem project_idempotent (qr : Mat → Vec → Vec) (C : Constraint) (x : Vec)
    (h : Constraint.distance C x ≤ C.projectionTolerance) :
    project qr C x = (x, true) ∧ projectSteps qr C x = 0 := by
  rw [Constraint.distance] at h
  have hcond : ¬ C.projectionTolerance < enorm (C.f x) := not_lt.mpr h
  constructor
  · rw [project]
    simp only [projectLoop, if_neg hcond]
    simp
  · rw [projectSteps]
    simp only [projectLoop, if_neg hcond]

/-- C8 witness: the all-feasible constraint `conSat` at the point `[3]`. -/
theorem project_idempotent_witness :
    Constraint.distance conSat [3] ≤ conSat.projectionTolerance ∧
    (project qrOne conSat [3] = ([3], true) ∧ projectSteps qrOne conSat [3] = 0) := by
  have h : Constraint.distance conSat [3] ≤ conSat.projectionTolerance := by
    simp [Constraint.distance, conSat, enorm_single]
  exact ⟨h, project_idempotent qrOne conSat [3] h⟩

/-- C10: `project` mutates its argument in place even on failure: for
the constantly-violated constraint `conBad` (residual `[1]`, tolerance
`0`, one-iteration budget) and the solve oracle `qrOne`, projection of
`[0]` returns `false` and leaves the point at `[-1]`, the result of the
Newton updates, not the original input. -/
theorem project_mutates_on_failure :
    project qrOne conBad [0] = ([-1], false) ∧ ([-1] : Vec) ≠ [0] := by
  constructor
  · simp [project, projectLoop, conBad, qrOne, enorm_single, vsub]
  · norm_num

/-- C9: `checkSpace` returns normally iff the state space bound to the
space-information object downcasts to a `NullspaceStateSpace`, and in
every other case it fails loudly with the exception message of the
source; a compatible space produces the plain `()` result (no effect). -/
theorem checkSpace_compat (si : SpaceInformation) :
    (checkSpace si = Except.ok () ↔ (castNullspace si.stateSpace).isSome = true) ∧
    (checkSpace si = Except.ok () ∨
      checkSpace si = Except.error "si needs to use an NullspaceStateSpace!") := by
  obtain ⟨sp⟩ := si
  cases sp with
  | nullspaceRepr S => simp [checkSpace, castNullspace]
  | otherRepr => simp [checkSpace, castNullspace]

/-- C2 counterexample: for the space `spaceBad` (whose constraint no
point satisfies) walking from `[5]` to `[7]` with a nonzero segment
count returns `false`, but the collected path is `[[5]]` — the copy of
the start state pushed before the satisfaction check — not the empty
list the claim asserts. -/
theorem traverse_bad_start_cex :
    traverseManifold spaceBad [5] [7] true 1 = some (false, [[5]]) ∧
    ([[5]] : List Vec) ≠ [] := by
  constructor
  · simp [traverseManifold, validSegmentCount, rvDistance_single, spaceBad,
          Constraint.isSatisfied, Constraint.distance, conBad, enorm_single]
    norm_num
  · simp

/-- C2 (amended): with a nonzero step count and a start state failing
`isSatisfied`, `traverseManifold` returns `false` and the collector
holds exactly one entry, the copy of the start state (the source pushes
it before checking the constraint). -/
theorem traverse_bad_start_amended (S : NullspaceStateSpace) (a b : Vec)
    (interp : Bool) (fuel : ℕ) (hn : validSegmentCount S a b ≠ 0)
    (hsat : ¬ Constraint.isSatisfied S.constraint a) :
    traverseManifold S a b interp fuel = some (false, [a]) := by
  simp only [traverseManifold]
  rw [if_neg hn, if_pos hsat]

/-- C2 witness: `traverse_bad_start_amended` applied to the concrete
run of `traverse_bad_start_cex`. -/
theorem traverse_bad_start_witness :
    validSegmentCount spaceBad [5] [7] ≠ 0 ∧
    ¬ Constraint.isSatisfied spaceBad.constraint [5] ∧
    traverseManifold spaceBad [5] [7] true 1 = some (false, [[5]]) := by
  have h1 : validSegmentCount spaceBad [5] [7] ≠ 0 := by
    simp [validSegmentCount, rvDistance_single, spaceBad]
    norm_num
  have h2 : ¬ Constraint.isSatisfied spaceBad.constraint [5] := by
    simp [Constraint.isSatisfied, Constraint.distance, spaceBad, conBad, enorm_single]
  exact ⟨h1, h2, traverse_bad_start_amended spaceBad [5] [7] true 1 h1 h2⟩

lemma projectLoop_succ (qr : Mat → Vec → Vec) (C : Constraint) (fuel : ℕ)
    (x : Vec) (iter steps : ℕ) :
    projectLoop qr C (fuel + 1) x iter steps =
      if C.projectionTolerance < enorm (C.f x) then
        if iter < C.projectionMaxIterations then
          projectLoop qr C fuel (vsub x (qr (C.jacobian x) (C.f x))) (iter + 1) (steps + 1)
        else (x, iter + 1, steps)
      else (x, iter, steps) := rfl

lemma projectLoop_exhaust (qr : Mat → Vec → Vec) (C : Constraint) (x : Vec)
    (h : ∀ i, i ≤ C.projectionMaxIterations →
      C.projectionTolerance < enorm (C.f (newtonIterate qr C x i))) :
    ∀ fuel k, k ≤ C.projectionMaxIterations →
      C.projectionMaxIterations + 1 - k ≤ fuel →
      projectLoop qr C fuel (newtonIterate qr C x k) k k =
        (newtonIterate qr C x C.projectionMaxIterations,
          C.projectionMaxIterations + 1, C.projectionMaxIterations) := by
  intro fuel
  induction fuel with
  | zero => intro k hk hf; omega
  | succ fuel ih =>
      intro k hk hf
      rw [projectLoop_succ, if_pos (h k hk)]
      by_cases hkm : k < C.projectionMaxIterations
      · rw [if_pos hkm]
        have hstep : vsub (newtonIterate qr C x k)
            (qr (C.jacobian (newtonIterate qr C x k)) (C.f (newtonIterate qr C x k))) =
            newtonIterate qr C x (k + 1) := rfl
        rw [hstep]
        exact ih (k + 1) hkm (by omega)
      · rw [if_neg hkm]
        have hkP : k = C.projectionMaxIterations := le_antisymm hk (not_lt.mp hkm)
        subst hkP
        rfl

lemma projectLoop_hit (qr : Mat → Vec → Vec) (C : Constraint) (x : Vec) (i0 : ℕ)
    (hhit : enorm (C.f (newtonIterate qr C x i0)) ≤ C.projectionTolerance)
    (hmin : ∀ i < i0, C.projectionTolerance < enorm (C.f (newtonIterate qr C x i)))
    (hle : i0 ≤ C.projectionMaxIterations) :
    ∀ fuel k, k ≤ i0 → i0 + 1 - k ≤ fuel →
      projectLoop qr C fuel (newtonIterate qr C x k) k k =
        (newtonIterate qr C x i0, i0, i0) := by
  intro fuel
  induction fuel with
  | zero => intro k hk hf; omega
  | succ fuel ih =>
      intro k hk hf
      rcases eq_or_lt_of_le hk with heq | hlt
      · subst heq
        rw [projectLoop_succ, if_neg (not_lt.mpr hhit)]
      · rw [projectLoop_succ, if_pos (hmin k hlt), if_pos (lt_of_lt_of_le hlt hle)]
        have hstep : vsub (newtonIterate qr C x k)
            (qr (C.jacobian (newtonIterate qr C x k)) (C.f (newtonIterate qr C x k))) =
            newtonIterate qr C x (k + 1) := rfl
        rw [hstep]
        exact ih (k + 1) hlt (by omega)

/-- C3: `project` returns `true` iff some Newton iterate within the
iteration budget meets the tolerance, and whenever it returns `false`
it has performed exactly `projectionMaxIterations` Newton updates. -/
theorem project_convergence (qr : Mat → Vec → Vec) (C : Constraint) (x : Vec) :
    ((project qr C x).2 = true ↔
      ∃ i, i ≤ C.projectionMaxIterations ∧
        enorm (C.f (newtonIterate qr C x i)) ≤ C.projectionTolerance) ∧
    ((project qr C x).2 = false →
      projectSteps qr C x = C.projectionMaxIterations) := by
  classical
  by_cases hex : ∃ i, i ≤ C.projectionMaxIterations ∧
      enorm (C.f (newtonIterate qr C x i)) ≤ C.projectionTolerance
  · obtain ⟨m, hmP, hm⟩ := hex
    have hone : ∃ i, enorm (C.f (newtonIterate qr C x i)) ≤ C.projectionTolerance := ⟨m, hm⟩
    have hspec := Nat.find_spec hone
    have hminlt : ∀ i < Nat.find hone,
        C.projectionTolerance < enorm (C.f (newtonIterate qr C x i)) := by
      intro i hi
      exact not_le.mp (Nat.find_min hone hi)
    have hi0le : Nat.find hone ≤ C.projectionMaxIterations :=
      le_trans (Nat.find_min' hone hm) hmP
    have hrun := projectLoop_hit qr C x (Nat.find hone) hspec hminlt hi0le
      (C.projectionMaxIterations + 1) 0 (Nat.zero_le _) (by omega)
    rw [show newtonIterate qr C x 0 = x from rfl] at hrun
    have hbool : (project qr C x).2 = true := by
      rw [project]
      simp only [hrun]
      simp [hi0le]
    constructor
    · exact iff_of_true hbool ⟨Nat.find hone, hi0le, hspec⟩
    · intro hfalse
      rw [hfalse] at hbool
      simp at hbool
  · push_neg at hex
    have hex' : ∀ i, i ≤ C.projectionMaxIterations →
        C.projectionTolerance < enorm (C.f (newtonIterate qr C x i)) := hex
    have hrun := projectLoop_exhaust qr C x hex' (C.projectionMaxIterations + 1) 0
      (Nat.zero_le _) (by omega)
    rw [show newtonIterate qr C x 0 = x from rfl] at hrun
    have hbool : (project qr C x).2 = false := by
      rw [project]
      simp only [hrun]
      simp
    constructor
    · refine iff_of_false (by simp [hbool]) ?_
      rintro ⟨i, hiP, hi⟩
      exact absurd hi (not_le.mpr (hex' i hiP))
    · intro _
      rw [projectSteps, hrun]
  
/-- C3 witness: the never-satisfiable constraint `conBad2` (tolerance
`0`, residual constantly `[1]`, budget `2`): projection fails and the
loop performs exactly two Newton updates. -/
theorem project_convergence_witness :
    (project qrZero conBad2 [0]).2 = false ∧ projectSteps qrZero conBad2 [0] = 2 := by
  have hfalse : (project qrZero conBad2 [0]).2 = false := by
    simp [project, projectLoop, conBad2, conBad, qrZero, enorm_single, vsub]
  exact ⟨hfalse, (project_convergence qrZero conBad2 [0]).2 hfalse⟩

/-- C7: column `j` of the default numeric jacobian equals
`1.5*m1 - 0.6*m2 + 0.1*m3`, where `m1, m2, m3` are the central
difference estimates of `f` in coordinate `j` at step scales `h`,
`2h` and `3h` (six evaluations of `f`), with `h = fdStep x_j`. -/
theorem jacobian_column_formula (f : Vec → Vec) (x : Vec) (j : ℕ) (hj : j < x.length) :
    numDiffCol f x j =
      vadd (vsub (smul 1.5 (centralDiff f x j (fdStep (x.getD j 0))))
                 (smul 0.6 (centralDiff f x j (2 * fdStep (x.getD j 0)))))
           (smul 0.1 (centralDiff f x j (3 * fdStep (x.getD j 0)))) := by
  simp only [numDiffCol, centralDiff, List.set_set]
  simp only [getD_set_self _ _ _ hj]
  ring_nf

/-- C7 witness: the formula evaluated for the one-dimensional identity
residual at `x = [2]`, column `0`. -/
theorem jacobian_column_formula_witness :
    0 < ([2] : Vec).length ∧
    numDiffCol (fun v => [v.getD 0 0]) [2] 0 =
      vadd (vsub (smul 1.5 (centralDiff (fun v => [v.getD 0 0]) [2] 0
                    (fdStep (([2] : Vec).getD 0 0))))
                 (smul 0.6 (centralDiff (fun v => [v.getD 0 0]) [2] 0
                    (2 * fdStep (([2] : Vec).getD 0 0)))))
           (smul 0.1 (centralDiff (fun v => [v.getD 0 0]) [2] 0
                    (3 * fdStep (([2] : Vec).getD 0 0)))) :=
  ⟨by simp, jacobian_column_formula (fun v => [v.getD 0 0]) [2] 0 (by simp)⟩

lemma travLoop_zero (S : NullspaceStateSpace) (tgt : Vec) (interp : Bool)
    (dist : ℝ) (prev : Vec) (out : List Vec) :
    travLoop S tgt interp 0 dist prev out = none := rfl

open Classical in
lemma travLoop_succ (S : NullspaceStateSpace) (tgt : Vec) (interp : Bool) (fuel : ℕ)
    (dist : ℝ) (prev : Vec) (out : List Vec) :
    travLoop S tgt interp (fuel + 1) dist prev out =
      if dist < S.delta + dblEpsilon then some (true, out ++ [tgt])
      else
        if (interp || S.isValid (correctedPoint S tgt prev dist)) = false ∨
            rvDistance prev (correctedPoint S tgt prev dist) > 2 * S.delta then
          some (false, out)
        else
          if rvDistance (correctedPoint S tgt prev dist) tgt ≥ dist then
            some (false, out ++ [correctedPoint S tgt prev dist])
          else
            travLoop S tgt interp fuel (rvDistance (correctedPoint S tgt prev dist) tgt)
              (correctedPoint S tgt prev dist) (out ++ [correctedPoint S tgt prev dist]) := rfl

lemma head?_append_left {l t : List Vec} (h : l ≠ []) : (l ++ t).head? = l.head? := by
  cases l with
  | nil => exact absurd rfl h
  | cons a l' => rfl

lemma travLoop_head (S : NullspaceStateSpace) (tgt : Vec) (interp : Bool) :
    ∀ fuel (dist : ℝ) (prev : Vec) (out : List Vec) (flag : Bool) (l : List Vec),
      travLoop S tgt interp fuel dist prev out = some (flag, l) →
      out ≠ [] → l.head? = out.head? := by
  intro fuel
  induction fuel with
  | zero =>
      intro dist prev out flag l h _
      rw [travLoop_zero] at h
      cases h
  | succ fuel ih =>
      intro dist prev out flag l h hne
      rw [travLoop_succ] at h
      split_ifs at h with h1 h2 h3
      · simp only [Option.some.injEq, Prod.mk.injEq] at h
        rw [← h.2, head?_append_left hne]
      · simp only [Option.some.injEq, Prod.mk.injEq] at h
        rw [← h.2]
      · simp only [Option.some.injEq, Prod.mk.injEq] at h
        rw [← h.2, head?_append_left hne]
      · have := ih _ _ _ _ _ h (by simp)
        rw [this, head?_append_left hne]

lemma travLoop_true_last (S : NullspaceStateSpace) (tgt : Vec) (interp : Bool) :
    ∀ fuel (dist : ℝ) (prev : Vec) (out : List Vec) (l : List Vec),
      travLoop S tgt interp fuel dist prev out = some (true, l) →
      l.getLast? = some tgt := by
  intro fuel
  induction fuel with
  | zero =>
      intro dist prev out l h
      rw [travLoop_zero] at h
      cases h
  | succ fuel ih =>
      intro dist prev out l h
      rw [travLoop_succ] at h
      split_ifs at h with h1 h2 h3
      · simp only [Option.some.injEq, Prod.mk.injEq] at h
        rw [← h.2, List.getLast?_concat]
      · simp at h
      · simp at h
      · exact ih _ _ _ _ h

lemma travLoop_false_last_ne (S : NullspaceStateSpace) (tgt : Vec) (interp : Bool)
    (hd : 0 < S.delta) :
    ∀ fuel (dist : ℝ) (prev : Vec) (out : List Vec) (l : List Vec),
      travLoop S tgt interp fuel dist prev out = some (false, l) →
      dist = rvDistance prev tgt → out.getLast? = some prev →
      l.getLast? ≠ some tgt := by
  intro fuel
  induction fuel with
  | zero =>
      intro dist prev out l h _ _
      rw [travLoop_zero] at h
      cases h
  | succ fuel ih =>
      intro dist prev out l h hdist hlast
      have hge : S.delta + dblEpsilon ≤ dist ∨ dist < S.delta + dblEpsilon := by
        rcases lt_or_le dist (S.delta + dblEpsilon) with hc | hc
        · exact Or.inr hc
        · exact Or.inl hc
      rw [travLoop_succ] at h
      split_ifs at h with h1 h2 h3
      · simp at h
      · -- blocked on validity/deviation: the collected list still ends at `prev`
        simp only [Option.some.injEq, Prod.mk.injEq] at h
        rw [← h.2, hlast]
        intro heq
        have hpt : prev = tgt := Option.some.inj heq
        rw [hpt, rvDistance_self] at hdist
        rw [hdist] at h1
        have hde := dblEpsilon_pos
        exact h1 (by linarith)
      · -- blocked on divergence: the last pushed point is at distance ≥ dist > 0 from `tgt`
        simp only [Option.some.injEq, Prod.mk.injEq] at h
        rw [← h.2, List.getLast?_concat]
        intro heq
        have hpt : correctedPoint S tgt prev dist = tgt := Option.some.inj heq
        rw [hpt, rvDistance_self] at h3
        have hd0 : dist ≤ 0 := h3
        have hde := dblEpsilon_pos
        exact h1 (by linarith)
      · exact ih _ _ _ _ h rfl (List.getLast?_concat _)

lemma travLoop_chain (S : NullspaceStateSpace) (tgt : Vec) (interp : Bool) :
    ∀ fuel (dist : ℝ) (prev : Vec) (out : List Vec) (flag : Bool) (l : List Vec),
      travLoop S tgt interp fuel dist prev out = some (flag, l) →
      List.Chain' (fun u v => rvDistance v tgt < rvDistance u tgt) out →
      out.getLast? = some prev →
      dist = rvDistance prev tgt →
      List.Chain' (fun u v => rvDistance v tgt < rvDistance u tgt) l.dropLast := by
  intro fuel
  induction fuel with
  | zero =>
      intro dist prev out flag l h _ _ _
      rw [travLoop_zero] at h
      cases h
  | succ fuel ih =>
      intro dist prev out flag l h hchain hlast hdist
      rw [travLoop_succ] at h
      split_ifs at h with h1 h2 h3
      · simp only [Option.some.injEq, Prod.mk.injEq] at h
        rw [← h.2, List.dropLast_concat]
        exact hchain
      · simp only [Option.some.injEq, Prod.mk.injEq] at h
        rw [← h.2]
        exact chain'_dropLast _ hchain
      · simp only [Option.some.injEq, Prod.mk.injEq] at h
        rw [← h.2, List.dropLast_concat]
        exact hchain
      · refine ih _ _ _ _ _ h ?_ (List.getLast?_concat _) rfl
        refine List.chain'_append.mpr ⟨hchain, List.chain'_singleton _, ?_⟩
        intro x hx y hy
        rw [hlast] at hx
        have hxp : x = prev := (Option.some.inj hx).symm
        have hys : y = correctedPoint S tgt prev dist :=
          (show correctedPoint S tgt prev dist = y by simpa using hy).symm
        rw [hxp, hys, ← hdist]
        exact lt_of_not_le (fun hc => h3 hc)

/-- C5: monotone progress.  Every result of `traverseManifold` lists, up
to its last element, points whose ambient distance to the target
strictly decreases (every point accepted as the new `previous` is
strictly closer to the target than its predecessor), and whenever an
iteration's corrected point fails to come strictly closer than the
current distance (while passing the validity and deviation checks) the
loop stops on the spot with the reached flag `false` and the corrected
point as the final recorded entry. -/
theorem traverse_monotone (S : NullspaceStateSpace) (a b : Vec) (interp : Bool)
    (fuel : ℕ) (flag : Bool) (l : List Vec) (fuel2 : ℕ) (d : ℝ) (prev : Vec)
    (out : List Vec)
    (h : traverseManifold S a b interp fuel = some (flag, l))
    (hthere : ¬ d < S.delta + dblEpsilon)
    (hok : ¬ ((interp || S.isValid (correctedPoint S b prev d)) = false ∨
        rvDistance prev (correctedPoint S b prev d) > 2 * S.delta))
    (hdiv : rvDistance (correctedPoint S b prev d) b ≥ d) :
    List.Chain' (fun u v => rvDistance v b < rvDistance u b) l.dropLast ∧
    travLoop S b interp (fuel2 + 1) d prev out =
      some (false, out ++ [correctedPoint S b prev d]) := by
  constructor
  · simp only [traverseManifold] at h
    split_ifs at h with h1 h2
    · simp only [Option.some.injEq, Prod.mk.injEq] at h
      rw [← h.2]
      simp
    · exact travLoop_chain S b interp fuel _ _ _ _ _ h (List.chain'_singleton _) rfl rfl
    · simp only [Option.some.injEq, Prod.mk.injEq] at h
      rw [← h.2]
      simp
  · rw [travLoop_succ, if_neg hthere, if_neg hok, if_pos hdiv]

/-- C5 witness: over `spaceWalk` (kernel oracle `{[-1]}`) the walk from
`[0]` to `[1]` steps away from the target, so the first corrected point
`[-1/2]` triggers the divergence stop: the run returns `false` with
path `[[0], [-1/2]]`, whose prefix is strictly decreasing in distance
to the target. -/
theorem traverse_monotone_witness :
    traverseManifold spaceWalk [0] [1] true 1 = some (false, [[0], [-(1 : ℝ)/2]]) ∧
    (¬ (1 : ℝ) < spaceWalk.delta + dblEpsilon) ∧
    (¬ ((true || spaceWalk.isValid (correctedPoint spaceWalk [1] [0] 1)) = false ∨
        rvDistance [0] (correctedPoint spaceWalk [1] [0] 1) > 2 * spaceWalk.delta)) ∧
    rvDistance (correctedPoint spaceWalk [1] [0] 1) [1] ≥ 1 ∧
    (List.Chain' (fun u v => rvDistance v [1] < rvDistance u [1])
        ([[0], [-(1 : ℝ)/2]] : List Vec).dropLast ∧
      travLoop spaceWalk [1] true (0 + 1) 1 [0] [] =
        some (false, [] ++ [correctedPoint spaceWalk [1] [0] 1])) := by
  have hc : correctedPoint spaceWalk [1] [0] 1 = [-(1 : ℝ)/2] := by
    simp [correctedPoint, rvInterpolate, spaceWalk, conSat, vadd, vsub, smul,
          matVec, rowwiseReverse, dot]
    norm_num
  have h : traverseManifold spaceWalk [0] [1] true 1 = some (false, [[0], [-(1 : ℝ)/2]]) := by
    simp [traverseManifold, validSegmentCount, rvDistance_single, spaceWalk,
          Constraint.isSatisfied, Constraint.distance, conSat, enorm_single,
          travLoop, correctedPoint, rvInterpolate, vadd, vsub, smul, dblEpsilon,
          matVec, rowwiseReverse, dot]
    norm_num [abs_of_nonneg, abs_of_nonpos]
  have hthere : ¬ (1 : ℝ) < spaceWalk.delta + dblEpsilon := by
    norm_num [spaceWalk, dblEpsilon]
  have hok : ¬ ((true || spaceWalk.isValid (correctedPoint spaceWalk [1] [0] 1)) = false ∨
      rvDistance [0] (correctedPoint spaceWalk [1] [0] 1) > 2 * spaceWalk.delta) := by
    rw [hc]
    norm_num [spaceWalk, rvDistance_single, abs_of_nonneg, abs_of_nonpos]
  have hdiv : rvDistance (correctedPoint spaceWalk [1] [0] 1) [1] ≥ 1 := by
    rw [hc]
    norm_num [rvDistance_single, abs_of_nonneg, abs_of_nonpos]
  exact ⟨h, hthere, hok, hdiv,
    traverse_monotone spaceWalk [0] [1] true 1 false [[0], [-(1 : ℝ)/2]] 0 1 [0] []
      h hthere hok hdiv⟩

/-- C6: whenever `traverseManifold` produces a result, the collected
path begins with the copy of the start state; if it reports `true` with
a nonzero step count the path ends with the copy of the target; and the
path can end with the target only when the reported flag is `true`. -/
theorem traverse_endpoints (S : NullspaceStateSpace) (a b : Vec) (interp : Bool)
    (fuel : ℕ) (flag : Bool) (l : List Vec) (hd : 0 < S.delta)
    (h : traverseManifold S a b interp fuel = some (flag, l)) :
    l.head? = some a ∧
    (flag = true → validSegmentCount S a b ≠ 0 → l.getLast? = some b) ∧
    (l.getLast? = some b → flag = true) := by
  simp only [traverseManifold] at h
  split_ifs at h with h1 h2
  · simp only [Option.some.injEq, Prod.mk.injEq] at h
    obtain ⟨hflag, hl⟩ := h
    subst hl
    exact ⟨rfl, fun _ hn => absurd h1 hn, fun _ => hflag.symm⟩
  · refine ⟨?_, ?_, ?_⟩
    · have hh := travLoop_head S b interp fuel _ _ _ _ _ h (by simp)
      simpa using hh
    · intro hf _
      rw [hf] at h
      exact travLoop_true_last S b interp fuel _ _ _ _ h
    · intro hlast
      by_contra hml
      have hflag : flag = false := by
        cases flag
        · rfl
        · exact absurd rfl hml
      rw [hflag] at h
      exact travLoop_false_last_ne S b interp hd fuel _ _ _ _ h rfl (by simp) hlast
  · simp only [Option.some.injEq, Prod.mk.injEq] at h
    obtain ⟨hflag, hl⟩ := h
    subst hl
    refine ⟨rfl, ?_, ?_⟩
    · intro hf _
      rw [← hflag] at hf
      exact Bool.noConfusion hf
    · intro hlast
      have hab : a = b := by simpa using hlast
      exfalso
      apply h1
      subst hab
      simp [validSegmentCount, rvDistance_self]

/-- C6 witness: the zero-step run from `[0]` to `[0]` over `spaceWalk`
returns `true` with the one-point path `[[0]]`. -/
theorem traverse_endpoints_witness :
    0 < spaceWalk.delta ∧
    traverseManifold spaceWalk [0] [0] true 1 = some (true, [[0]]) ∧
    (([[0]] : List Vec).head? = some [0] ∧
      (true = true → validSegmentCount spaceWalk [0] [0] ≠ 0 →
        ([[0]] : List Vec).getLast? = some [0]) ∧
      (([[0]] : List Vec).getLast? = some [0] → true = true)) := by
  have hd : 0 < spaceWalk.delta := by norm_num [spaceWalk]
  have h : traverseManifold spaceWalk [0] [0] true 1 = some (true, [[0]]) := by
    simp [traverseManifold, validSegmentCount, rvDistance_self]
  exact ⟨hd, h, traverse_endpoints spaceWalk [0] [0] true 1 true [[0]] hd h⟩

lemma list_sum_eq_getD (l : List ℝ) :
    l.sum = ∑ i ∈ Finset.range l.length, l.getD i 0 := by
  induction l with
  | nil => simp
  | cons a t ih =>
      rw [List.sum_cons, List.length_cons, Finset.sum_range_succ']
      simp only [List.getD_cons_succ, List.getD_cons_zero]
      rw [← ih, add_comm]

lemma dot_eq_sum (a b : Vec) :
    dot a b = ∑ i ∈ Finset.range (min a.length b.length), a.getD i 0 * b.getD i 0 := by
  rw [dot, list_sum_eq_getD, List.length_zipWith]
  apply Finset.sum_congr rfl
  intro i hi
  rw [Finset.mem_range] at hi
  have hia : i < a.length := lt_of_lt_of_le hi (min_le_left _ _)
  have hib : i < b.length := lt_of_lt_of_le hi (min_le_right _ _)
  have hlen : i < (List.zipWith (· * ·) a b).length := by
    rw [List.length_zipWith]
    exact hi
  rw [List.getD_eq_getElem _ _ hlen, List.getD_eq_getElem _ _ hia,
      List.getD_eq_getElem _ _ hib, List.getElem_zipWith]

lemma dot_matVec_rowwiseReverse_eq_zero (r v : Vec) (K : Mat) (d : ℕ)
    (hKrow : ∀ row ∈ K, row.length = d)
    (hv : d ≤ v.length)
    (h0 : ∀ j < d, dot r (colOf K j) = 0) :
    dot r (matVec (rowwiseReverse K) v) = 0 := by
  have hw : matVec (rowwiseReverse K) v = K.map (fun row => dot row.reverse v) := by
    simp [matVec, rowwiseReverse, List.map_map, Function.comp]
  rw [hw, dot_eq_sum, List.length_map]
  have hterm : ∀ i ∈ Finset.range (min r.length K.length),
      r.getD i 0 * (K.map (fun row => dot row.reverse v)).getD i 0 =
      ∑ j ∈ Finset.range d,
        r.getD i 0 * ((K.getD i []).getD (d - 1 - j) 0 * v.getD j 0) := by
    intro i hi
    rw [Finset.mem_range] at hi
    have hiK : i < K.length := lt_of_lt_of_le hi (min_le_right _ _)
    have hmap : (K.map (fun row => dot row.reverse v)).getD i 0 =
        dot (K.getD i []).reverse v := by
      rw [List.getD_eq_getElem _ _ (by simpa using hiK), List.getElem_map,
          List.getD_eq_getElem _ _ hiK]
    rw [hmap, dot_eq_sum]
    have hrowlen : (K.getD i []).length = d := by
      apply hKrow
      rw [List.getD_eq_getElem _ _ hiK]
      exact List.getElem_mem _
    have hrevlen : (K.getD i []).reverse.length = d := by
      rw [List.length_reverse, hrowlen]
    have hmin : min (K.getD i []).reverse.length v.length = d := by
      rw [hrevlen]
      exact min_eq_left hv
    rw [hmin, Finset.mul_sum]
    apply Finset.sum_congr rfl
    intro j hj
    rw [Finset.mem_range] at hj
    have hjrev : j < (K.getD i []).reverse.length := by
      rw [hrevlen]
      exact hj
    have hidx : (K.getD i []).length - 1 - j < (K.getD i []).length := by
      rw [hrowlen]
      omega
    rw [List.getD_eq_getElem _ _ hjrev, List.getElem_reverse,
        ← List.getD_eq_getElem (K.getD i []) 0 hidx, hrowlen]
  rw [Finset.sum_congr rfl hterm, Finset.sum_comm]
  have hcol : ∀ j ∈ Finset.range d,
      (∑ i ∈ Finset.range (min r.length K.length),
        r.getD i 0 * ((K.getD i []).getD (d - 1 - j) 0 * v.getD j 0)) = 0 := by
    intro j hj
    rw [Finset.mem_range] at hj
    have hjd : d - 1 - j < d := by omega
    have hdot := h0 (d - 1 - j) hjd
    rw [dot_eq_sum] at hdot
    have hclen : (colOf K (d - 1 - j)).length = K.length := List.length_map _ _
    rw [hclen] at hdot
    calc ∑ i ∈ Finset.range (min r.length K.length),
          r.getD i 0 * ((K.getD i []).getD (d - 1 - j) 0 * v.getD j 0)
        = (∑ i ∈ Finset.range (min r.length K.length),
            r.getD i 0 * (colOf K (d - 1 - j)).getD i 0) * v.getD j 0 := by
          rw [Finset.sum_mul]
          apply Finset.sum_congr rfl
          intro i hi
          rw [Finset.mem_range] at hi
          have hiK : i < K.length := lt_of_lt_of_le hi (min_le_right _ _)
          have hcelem : (colOf K (d - 1 - j)).getD i 0 =
              (K.getD i []).getD (d - 1 - j) 0 := by
            rw [colOf, List.getD_eq_getElem _ _ (by simpa using hiK),
                List.getElem_map, List.getD_eq_getElem _ _ hiK]
          rw [hcelem]
          ring
      _ = 0 * v.getD j 0 := by rw [hdot]
      _ = 0 := by ring
  rw [Finset.sum_congr rfl hcol]
  simp

/-- C1 (amended): in each iteration the corrected point is exactly
`previous - lu.solve(J, f) + (kernel basis, columns reversed) * (trial - previous)`,
and when the kernel oracle's columns (of common length `d`, with `d` at
most the length of the raw step) lie in the null space of `J`, the added
step term itself lies in the null space of `J` — components normal to
the manifold are discarded — but it is not in general the orthogonal
projection of the raw ambient step onto that null space. -/
theorem nullspace_step_formula (S : NullspaceStateSpace) (tgt prev : Vec)
    (dist : ℝ) (d : ℕ)
    (hKrow : ∀ row ∈ S.lkernel (S.constraint.jacobian prev), row.length = d)
    (hv : d ≤ (vsub (rvInterpolate prev tgt (S.delta / dist)) prev).length)
    (hcols : ∀ j < d, inNull (S.constraint.jacobian prev)
        (colOf (S.lkernel (S.constraint.jacobian prev)) j)) :
    correctedPoint S tgt prev dist =
      vadd (vsub prev (S.lsolve (S.constraint.jacobian prev) (S.constraint.f prev)))
        (matVec (rowwiseReverse (S.lkernel (S.constraint.jacobian prev)))
          (vsub (rvInterpolate prev tgt (S.delta / dist)) prev)) ∧
    inNull (S.constraint.jacobian prev)
      (matVec (rowwiseReverse (S.lkernel (S.constraint.jacobian prev)))
        (vsub (rvInterpolate prev tgt (S.delta / dist)) prev)) := by
  constructor
  · rfl
  · rw [inNull, zeroVec]
    refine List.eq_replicate_iff.mpr ⟨?_, ?_⟩
    · rw [matVec, List.length_map]
    · intro y hy
      rw [matVec] at hy
      obtain ⟨row, hrow, hyeq⟩ := List.mem_map.mp hy
      rw [← hyeq]
      apply dot_matVec_rowwiseReverse_eq_zero row _ _ d hKrow hv
      intro j hj
      have hc := hcols j hj
      rw [inNull, zeroVec, matVec] at hc
      obtain ⟨-, hall⟩ := List.eq_replicate_iff.mp hc
      exact hall _ (List.mem_map_of_mem _ hrow)

/-- C1 witness: `nullspace_step_formula` at `spaceC1` (jacobian `[[0]]`,
kernel basis `{[2]}`), walking from `[0]` toward `[1]` at distance `1`. -/
theorem nullspace_step_formula_witness :
    (∀ row ∈ spaceC1.lkernel (spaceC1.constraint.jacobian [0]), row.length = 1) ∧
    1 ≤ (vsub (rvInterpolate [0] [1] (spaceC1.delta / 1)) [0]).length ∧
    (∀ j < 1, inNull (spaceC1.constraint.jacobian [0])
        (colOf (spaceC1.lkernel (spaceC1.constraint.jacobian [0])) j)) ∧
    (correctedPoint spaceC1 [1] [0] 1 =
      vadd (vsub [0] (spaceC1.lsolve (spaceC1.constraint.jacobian [0])
          (spaceC1.constraint.f [0])))
        (matVec (rowwiseReverse (spaceC1.lkernel (spaceC1.constraint.jacobian [0])))
          (vsub (rvInterpolate [0] [1] (spaceC1.delta / 1)) [0])) ∧
      inNull (spaceC1.constraint.jacobian [0])
        (matVec (rowwiseReverse (spaceC1.lkernel (spaceC1.constraint.jacobian [0])))
          (vsub (rvInterpolate [0] [1] (spaceC1.delta / 1)) [0]))) := by
  have h1 : ∀ row ∈ spaceC1.lkernel (spaceC1.constraint.jacobian [0]), row.length = 1 := by
    simp [spaceC1, conC1]
  have h2 : 1 ≤ (vsub (rvInterpolate [0] [1] (spaceC1.delta / 1)) [0]).length := by
    simp [rvInterpolate, vadd, vsub, smul, spaceC1]
  have h3 : ∀ j < 1, inNull (spaceC1.constraint.jacobian [0])
      (colOf (spaceC1.lkernel (spaceC1.constraint.jacobian [0])) j) := by
    intro j hj
    interval_cases j
    simp [inNull, matVec, dot, zeroVec, colOf, spaceC1, conC1]
  exact ⟨h1, h2, h3, nullspace_step_formula spaceC1 [1] [0] 1 1 h1 h2 h3⟩

/-- C1 counterexample: over `spaceC1` the kernel oracle returns `{[2]}`,
a genuine basis of the null space of the jacobian `[[0]]`, and the lu
solve oracle returns `[0]`, a genuine least-squares solution; the
orthogonal projection of the raw ambient step `[1/2]` onto the null
space (the whole line) is `[1/2]` itself, yet the corrected point
computed by the code is `[0] - [0] + [2] * [1/2] = [1]`, not
`[0] - [0] + [1/2] = [1/2]`: the step term is basis-dependent and is
not the null-space projection of the raw step. -/
theorem nullspace_projection_cex :
    IsNullBasisSpan 1 1 (conC1.jacobian [0]) (spaceC1.lkernel (conC1.jacobian [0])) ∧
    IsLstsqSol (conC1.jacobian [0]) (conC1.f [0])
      (spaceC1.lsolve (conC1.jacobian [0]) (conC1.f [0])) ∧
    IsOrthProjOntoNull (conC1.jacobian [0])
      (vsub (rvInterpolate [0] [1] (spaceC1.delta / 1)) [0]) [1 / 2] ∧
    correctedPoint spaceC1 [1] [0] 1 ≠
      vadd (vsub [0] (spaceC1.lsolve (conC1.jacobian [0]) (conC1.f [0]))) [1 / 2] := by
  have hvstep : vsub (rvInterpolate [0] [1] (spaceC1.delta / 1)) [0] = [(1 : ℝ) / 2] := by
    simp [rvInterpolate, vadd, vsub, smul, spaceC1]
  have hnull : ∀ u : Vec, inNull (conC1.jacobian [0]) u := by
    intro u
    rw [inNull, conC1]
    cases u with
    | nil => simp [matVec, dot, zeroVec]
    | cons u0 t => simp [matVec, dot, zeroVec]
  refine ⟨⟨?_, ?_, ?_, ?_⟩, ?_, ⟨?_, ?_, ?_⟩, ?_⟩
  · simp [spaceC1, conC1]
  · simp [spaceC1, conC1]
  · intro j hj
    exact hnull _
  · intro u hu _
    cases u with
    | nil => simp at hu
    | cons u0 t =>
        cases t with
        | nil =>
            refine ⟨[u0 / 2], ?_⟩
            rw [show List.range 1 = [0] from rfl]
            simp [lincomb, colOf, zeroVec, vadd, smul, spaceC1, conC1]
        | cons u1 t' => simp at hu
  · intro y
    have hzero : enorm (vsub (matVec (conC1.jacobian [0])
        (spaceC1.lsolve (conC1.jacobian [0]) (conC1.f [0]))) (conC1.f [0])) = 0 := by
      simp [matVec, dot, vsub, spaceC1, conC1, enorm_single]
    rw [hzero]
    exact enorm_nonneg _
  · rw [hvstep]
  · exact hnull _
  · intro u hu _
    rw [hvstep]
    have hv0 : vsub [(1 : ℝ) / 2] [1 / 2] = [(0 : ℝ)] := by
      simp [vsub]
    rw [hv0]
    cases u with
    | nil => simp [dot]
    | cons u0 t => simp [dot]
  · have hcorr : correctedPoint spaceC1 [1] [0] 1 = [(1 : ℝ)] := by
      simp [correctedPoint, rvInterpolate, spaceC1, conC1, vadd, vsub, smul,
            matVec, rowwiseReverse, dot]
    rw [hcorr]
    simp [vadd, vsub, spaceC1]
